import Mathlib

/-!
# Verification of the jsonDatabase storage driver (`src/main.go`)

A shallow embedding of the Go storage driver: paths are lists of components,
the filesystem is an association list from paths to entries, and the JSON
encoding used by `Driver.Write` / `Driver.Read` is modelled by an executable
serializer (mirroring `json.MarshalIndent(v, "", "\t")` plus the appended
newline) together with an executable parser (mirroring `json.Unmarshal`).
-/

namespace JsonDB

/-- JSON values, the model of the Go `interface{}` documents the driver
stores (`encoding/json` data model: null, booleans, numbers, strings,
arrays, objects). Numbers are modelled as integers. -/
inductive Json where
  | null : Json
  | bool (b : Bool) : Json
  | num (n : Int) : Json
  | str (s : String) : Json
  | arr (elems : List Json) : Json
  | obj (fields : List (String × Json)) : Json

/-- Decimal digits of a natural number, most significant first, as
characters; `0` prints as `"0"` exactly as Go's integer formatting does. -/
def natToChars (n : Nat) : List Char :=
  if n = 0 then ['0'] else (Nat.digits 10 n).reverse.map Nat.digitChar

/-- Go's decimal formatting of an integer (used by `encoding/json` for
integral numbers). -/
def intToChars : Int → List Char
  | .ofNat m => natToChars m
  | .negSucc m => '-' :: natToChars (m + 1)

/-- The escape sequence `encoding/json` emits for one character inside a
string literal (quote, backslash and the common control characters). -/
def escapeChar (c : Char) : List Char :=
  if c = '"' then ['\\', '"']
  else if c = '\\' then ['\\', '\\']
  else if c = '\n' then ['\\', 'n']
  else if c = '\t' then ['\\', 't']
  else if c = '\r' then ['\\', 'r']
  else [c]

/-- Escape a whole string body. -/
def escapeList : List Char → List Char
  | [] => []
  | c :: cs => escapeChar c ++ escapeList cs

/-- `ind` repeated `d` times: the indentation prefix `MarshalIndent` puts
after each newline at nesting depth `d` (its `prefix` argument is `""`). -/
def indentChars (ind : List Char) (d : Nat) : List Char :=
  (List.replicate d ind).flatten

mutual
/-- The output of Go's `json.MarshalIndent(v, "", ind)` at nesting depth
`d`: compound values open the bracket, put each element on its own line
indented one level deeper, and close the bracket at the current level. -/
def serVal (ind : List Char) (d : Nat) : Json → List Char
  | .null => 'n' :: ['u', 'l', 'l']
  | .bool true => 't' :: ['r', 'u', 'e']
  | .bool false => 'f' :: ['a', 'l', 's', 'e']
  | .num n => intToChars n
  | .str s => '"' :: (escapeList s.toList ++ ['"'])
  | .arr [] => ['[', ']']
  | .arr (e :: es) =>
      '[' :: '\n' :: (indentChars ind (d + 1) ++ serVal ind (d + 1) e ++
        serArr ind d es ++ '\n' :: (indentChars ind d ++ [']']))
  | .obj [] => ['{', '}']
  | .obj (f :: fs) =>
      '{' :: '\n' :: (indentChars ind (d + 1) ++ serField ind (d + 1) f ++
        serObj ind d fs ++ '\n' :: (indentChars ind d ++ ['}']))

/-- Serialization of the remaining array elements (each preceded by a comma,
newline and one-deeper indentation). -/
def serArr (ind : List Char) (d : Nat) : List Json → List Char
  | [] => []
  | e :: es => ',' :: '\n' :: (indentChars ind (d + 1) ++ serVal ind (d + 1) e ++ serArr ind d es)

/-- Serialization of one object member: quoted escaped key, colon, space,
value. -/
def serField (ind : List Char) (d : Nat) : String × Json → List Char
  | (k, v) => '"' :: (escapeList k.toList ++ '"' :: ':' :: ' ' :: serVal ind d v)

/-- Serialization of the remaining object members. -/
def serObj (ind : List Char) (d : Nat) : List (String × Json) → List Char
  | [] => []
  | f :: fs => ',' :: '\n' :: (indentChars ind (d + 1) ++ serField ind (d + 1) f ++ serObj ind d fs)
end

/-- JSON insignificant whitespace, as recognised by `encoding/json`. -/
def ws (c : Char) : Bool :=
  c = ' ' || c = '\t' || c = '\n' || c = '\r'

/-- Drop leading insignificant whitespace. -/
def skipWs : List Char → List Char
  | [] => []
  | c :: rest => if ws c then skipWs rest else c :: rest

/-- Inverse of `escapeChar` on the character following a backslash. -/
def unescapeChar (c : Char) : Option Char :=
  if c = '"' then some '"'
  else if c = '\\' then some '\\'
  else if c = 'n' then some '\n'
  else if c = 't' then some '\t'
  else if c = 'r' then some '\r'
  else none

mutual
/-- Parse a string literal body (the opening quote already consumed),
returning the unescaped characters and the input after the closing quote. -/
def parseStr : List Char → Option (List Char × List Char)
  | [] => none
  | c :: rest =>
    if c = '"' then some ([], rest)
    else if c = '\\' then parseEsc rest
    else
      match parseStr rest with
      | none => none
      | some (s, r) => some (c :: s, r)

/-- Parse the character after a backslash and the remainder of the string
literal. -/
def parseEsc : List Char → Option (List Char × List Char)
  | [] => none
  | e :: rest2 =>
    match unescapeChar e with
    | none => none
    | some u =>
      match parseStr rest2 with
      | none => none
      | some (s, r) => some (u :: s, r)
end

/-- Numeric value of a decimal digit character. -/
def charVal (c : Char) : Nat := c.toNat - '0'.toNat

/-- Parse a maximal run of decimal digits into a natural number. -/
def parseNat (l : List Char) : Option (Nat × List Char) :=
  let ds := l.takeWhile (fun c => c.isDigit)
  if ds.isEmpty then none
  else some (Nat.ofDigits 10 ((ds.map charVal).reverse), l.dropWhile (fun c => c.isDigit))

mutual
/-- Fuel-indexed JSON value parser, the model of `json.Unmarshal`'s
scanner: skip whitespace, dispatch on the first significant character. -/
def parseVal : Nat → List Char → Option (Json × List Char)
  | 0, _ => none
  | fuel + 1, l =>
    match skipWs l with
    | [] => none
    | c :: rest =>
      if c.isDigit then
        match parseNat (c :: rest) with
        | some (n, r) => some (.num (n : Int), r)
        | none => none
      else if c = '-' then
        match parseNat rest with
        | some (n, r) => some (.num (-(n : Int)), r)
        | none => none
      else if c = 'n' then
        match rest with
        | 'u' :: 'l' :: 'l' :: r => some (.null, r)
        | _ => none
      else if c = 't' then
        match rest with
        | 'r' :: 'u' :: 'e' :: r => some (.bool true, r)
        | _ => none
      else if c = 'f' then
        match rest with
        | 'a' :: 'l' :: 's' :: 'e' :: r => some (.bool false, r)
        | _ => none
      else if c = '"' then
        match parseStr rest with
        | some (s, r) => some (.str (String.mk s), r)
        | none => none
      else if c = '[' then
        match skipWs rest with
        | [] => none
        | c2 :: r =>
          if c2 = ']' then some (.arr [], r)
          else
            match parseVal fuel (c2 :: r) with
            | none => none
            | some (v, r2) =>
              match parseArrRest fuel r2 with
              | none => none
              | some (vs, r3) => some (.arr (v :: vs), r3)
      else if c = '{' then
        match skipWs rest with
        | [] => none
        | c2 :: r =>
          if c2 = '}' then some (.obj [], r)
          else
            match parseFieldFrom fuel (c2 :: r) with
            | none => none
            | some (fs, r2) => some (.obj fs, r2)
      else none

/-- Parse the remainder of an array after one element: a comma and a further
element, repeatedly, until the closing bracket. -/
def parseArrRest : Nat → List Char → Option (List Json × List Char)
  | 0, _ => none
  | fuel + 1, l =>
    match skipWs l with
    | [] => none
    | c :: r =>
      if c = ']' then some ([], r)
      else if c = ',' then
        match parseVal fuel r with
        | none => none
        | some (v, r2) =>
          match parseArrRest fuel r2 with
          | none => none
          | some (vs, r3) => some (v :: vs, r3)
      else none

/-- Parse one object member starting at its opening quote, then the rest of
the object. -/
def parseFieldFrom : Nat → List Char → Option (List (String × Json) × List Char)
  | 0, _ => none
  | fuel + 1, l =>
    match l with
    | [] => none
    | c :: rest =>
      if c = '"' then
        match parseStr rest with
        | none => none
        | some (k, r) =>
          match skipWs r with
          | [] => none
          | c2 :: r2 =>
            if c2 = ':' then
              match parseVal fuel r2 with
              | none => none
              | some (v, r3) =>
                match parseObjRest fuel r3 with
                | none => none
                | some (fs, r4) => some ((String.mk k, v) :: fs, r4)
            else none
      else none

/-- Parse the remainder of an object after one member: either the closing
brace or a comma followed by a further member. -/
def parseObjRest : Nat → List Char → Option (List (String × Json) × List Char)
  | 0, _ => none
  | fuel + 1, l =>
    match skipWs l with
    | [] => none
    | c :: r =>
      if c = '}' then some ([], r)
      else if c = ',' then parseFieldFrom fuel (skipWs r)
      else none
end

/-- `json.Unmarshal`: parse one value and require only whitespace after it. -/
def jsonUnmarshal (s : String) : Option Json :=
  match parseVal (s.toList.length + 1) s.toList with
  | some (v, rest) => if rest.all ws then some v else none
  | none => none

/-- Lists made of JSON whitespace only (indentation units are such). -/
def wsOnly (l : List Char) : Prop := ∀ c ∈ l, ws c = true

/-- The input does not continue with a digit (so a maximal digit run just
parsed is really over). -/
def headNotDigit : List Char → Bool
  | [] => true
  | c :: _ => !c.isDigit

/-- The exact bytes `Driver.Write` persists for a value: the output of
`json.MarshalIndent(v, "", "\t")` with the newline the code appends. -/
def jsonFileContent (v : Json) : String :=
  String.mk (serVal ['\t'] 0 v ++ ['\n'])

/-- Modelled from the spec: the serialization the specification describes,
"2-space-equivalent indentation" with a trailing newline, i.e. the output of
an indented marshal whose indent unit is two spaces, newline-terminated. -/
def specTwoSpaceFileContent (v : Json) : String :=
  String.mk (serVal [' ', ' '] 0 v ++ ['\n'])

/-! ## The filesystem model

Paths are lists of components (`filepath.Join` of clean single components
is list append), the filesystem an association list from paths to entries
in which the first binding wins. -/

/-- A filesystem path, as the list of its components. -/
abbrev Path := List String

/-- A filesystem entry: a regular file with its text content, or a
directory. -/
inductive Entry where
  | file (content : String) : Entry
  | dir : Entry
deriving DecidableEq

/-- A filesystem state. -/
abbrev FS := List (Path × Entry)

/-- Look a path up; the first binding wins. -/
def lookupFS (fs : FS) (p : Path) : Option Entry :=
  match fs with
  | [] => none
  | (q, e) :: rest => if q = p then some e else lookupFS rest p

/-- Install (or replace) the entry at a path. -/
def setFS (fs : FS) (p : Path) (e : Entry) : FS := (p, e) :: fs

/-- `isPrefix p q`: path `p` equals `q` or is an ancestor of it. -/
def isPrefix (p q : Path) : Bool :=
  match p, q with
  | [], _ => true
  | a :: as, b :: bs => a = b && isPrefix as bs
  | _ :: _, [] => false

/-- Remove the binding of one exact path (the rename source). -/
def removePathFS (fs : FS) (p : Path) : FS :=
  fs.filter (fun pe => decide (pe.1 ≠ p))

/-- `os.RemoveAll`: delete the path and everything beneath it; removing a
path that does not exist succeeds and changes nothing. -/
def removeAllFS (fs : FS) (p : Path) : FS :=
  fs.filter (fun pe => !isPrefix p pe.1)

/-- Appending a suffix to a path's string form appends it to the last
component (`record + ".json"`, `fnlPath + ".tmp"` in the Go code). -/
def addSuffix : Path → String → Path
  | [], suf => [suf]
  | [a], suf => [a ++ suf]
  | a :: b :: rest, suf => a :: addSuffix (b :: rest) suf

/-- The `stat` helper (`src/main.go:195`): try the path as given; only if
it does not exist, try the path with the `.json` suffix appended. Returns
the winning path and its entry, or `none` when neither exists. -/
def stat (fs : FS) (p : Path) : Option (Path × Entry) :=
  match lookupFS fs p with
  | some e => some (p, e)
  | none =>
    match lookupFS fs (addSuffix p ".json") with
    | some e => some (addSuffix p ".json", e)
    | none => none

/-- The driver's error outcomes: the two validation errors, the not-exist
error `stat`/`os.ReadFile` produce (`os.IsNotExist`), `Driver.Delete`'s
"Unable to find record" error, I/O failures, and the encode/decode
failures of `encoding/json`. -/
inductive DBError where
  | missingCollection
  | missingResource
  | notFound
  | unableToFindRecord
  | ioError
  | serializationError
  | decodeError
deriving DecidableEq

/-- `validateCollectionResource` (`src/main.go:117`): empty collection,
then empty resource. -/
def validateCollectionResource (collection resource : String) : Option DBError :=
  if collection = "" then some .missingCollection
  else if resource = "" then some .missingResource
  else none

/-- The `Driver` (`src/main.go:26`): its root directory. The logger and
the mutex registry play no part in the single-threaded semantics. -/
structure Driver where
  dir : Path

/-- Injected environment failures for the fallible OS and serialization
calls made by `Driver.Write` and `Driver.ReadAll` (disk full, permissions,
unsupported value types, ...). -/
structure SysFailures where
  mkdirFails : Bool
  marshalFails : Bool
  writeFileFails : Bool
  renameFails : Bool
  readDirFails : Bool
deriving DecidableEq

/-- The failure-free environment. -/
def noFailures : SysFailures := ⟨false, false, false, false, false⟩

/-- Every nonempty prefix of a path, shortest first. -/
def prefixesOf (p : Path) : List Path :=
  (List.range p.length).map (fun i => p.take (i + 1))

/-- `os.MkdirAll`: create every missing directory along the path; fails
when some prefix already exists as a regular file. -/
def mkdirAll (fs : FS) (p : Path) : Except DBError FS :=
  if (prefixesOf p).any
      (fun q => match lookupFS fs q with | some (.file _) => true | _ => false)
  then .error .ioError
  else .ok ((prefixesOf p).foldl (fun acc q => setFS acc q .dir) fs)

/-- `os.WriteFile`: replace the file at `p`; fails if `p` is a directory. -/
def writeFileFS (fs : FS) (p : Path) (content : String) : Except DBError FS :=
  if lookupFS fs p = some .dir then .error .ioError
  else .ok (setFS fs p (.file content))

/-- `os.Rename src dst` on a regular file: removes `src` and installs its
content at `dst`, atomically replacing any previous file; fails when `src`
is not a file or `dst` is a directory. -/
def renameFS (fs : FS) (src dst : Path) : Except DBError FS :=
  match lookupFS fs src with
  | some (.file c) =>
    if lookupFS fs dst = some .dir then .error .ioError
    else .ok (setFS (removePathFS fs src) dst (.file c))
  | _ => .error .ioError

/-- `os.ReadFile`: the file's content; a directory is an I/O error, a
missing path the not-exist error. -/
def readFileFS (fs : FS) (p : Path) : Except DBError String :=
  match lookupFS fs p with
  | some (.file c) => .ok c
  | some .dir => .error .ioError
  | none => .error .notFound

/-- The name of `p` when it sits directly inside directory `dirp`. -/
def childOf (dirp p : Path) : Option String :=
  if isPrefix dirp p then
    match p.drop dirp.length with
    | [x] => some x
    | _ => none
  else none

/-- `os.ReadDir`: the names of the entries directly inside `dirp`, in the
filesystem's enumeration order. -/
def readDirFS (fs : FS) (dirp : Path) : List String :=
  fs.filterMap (fun pe => childOf dirp pe.1)

/-- `Driver.Write` (`src/main.go:65`): validate; build the collection
directory, final (`<resource>.json`) and temporary (`fnlPath + ".tmp"`)
paths; `MkdirAll` the collection directory; marshal with tab indentation
and append a newline; write the bytes to the temporary file; rename the
temporary file onto the final path. Each failing step returns its error
with the filesystem as that step left it. -/
def Driver.Write (d : Driver) (collection resource : String) (v : Json)
    (fs : FS) (sf : SysFailures) : Except DBError Unit × FS :=
  match validateCollectionResource collection resource with
  | some e => (.error e, fs)
  | none =>
    let dirp := d.dir ++ [collection]
    let fnlPath := dirp ++ [resource ++ ".json"]
    let tmpPath := addSuffix fnlPath ".tmp"
    if sf.mkdirFails then (.error .ioError, fs)
    else
      match mkdirAll fs dirp with
      | .error e => (.error e, fs)
      | .ok fs1 =>
        if sf.marshalFails then (.error .serializationError, fs1)
        else
          let b := jsonFileContent v
          if sf.writeFileFails then (.error .ioError, fs1)
          else
            match writeFileFS fs1 tmpPath b with
            | .error e => (.error e, fs1)
            | .ok fs2 =>
              if sf.renameFails then (.error .ioError, fs2)
              else
                match renameFS fs2 tmpPath fnlPath with
                | .error e => (.error e, fs2)
                | .ok fs3 => (.ok (), fs3)

/-- `Driver.Read` (`src/main.go:97`): validate; `stat` the bare record path
(with the `.json` fallback), surfacing its not-exist error; then read
`record + ".json"` and unmarshal its bytes into the output value. -/
def Driver.Read (d : Driver) (collection resource : String) (fs : FS) :
    Except DBError Json :=
  match validateCollectionResource collection resource with
  | some e => .error e
  | none =>
    let record := d.dir ++ [collection, resource]
    match stat fs record with
    | none => .error .notFound
    | some _ =>
      match readFileFS fs (addSuffix record ".json") with
      | .error e => .error e
      | .ok b =>
        match jsonUnmarshal b with
        | some v => .ok v
        | none => .error .decodeError

/-- The loop of `Driver.ReadAll` (`src/main.go:144`): read each listed
file, returning the first read error, otherwise each file's raw content in
listing order. -/
def readAllLoop (fs : FS) (dirp : Path) : List String → Except DBError (List String)
  | [] => .ok []
  | f :: rest =>
    match readFileFS fs (dirp ++ [f]) with
    | .error e => .error e
    | .ok b =>
      match readAllLoop fs dirp rest with
      | .error e => .error e
      | .ok records => .ok (b :: records)

/-- `Driver.ReadAll` (`src/main.go:129`): empty-name check; `stat` the
collection directory (with the same `.json` fallback); list the directory,
discarding any listing failure — the code's `files, _ := os.ReadDir(dir)`
yields no entries in that case — then read every listed file. -/
def Driver.ReadAll (d : Driver) (collection : String) (fs : FS)
    (sf : SysFailures) : Except DBError (List String) :=
  if collection = "" then .error .missingCollection
  else
    let dirp := d.dir ++ [collection]
    match stat fs dirp with
    | none => .error .notFound
    | some _ =>
      let files := if sf.readDirFails then [] else readDirFS fs dirp
      readAllLoop fs dirp files

/-- `Driver.Delete` (`src/main.go:156`): validate; `stat` the joined path
(with the `.json` fallback); a missing target is the "Unable to find
record" error; a directory is removed recursively at the bare path; a
regular file is removed at the bare path with `.json` appended. -/
def Driver.Delete (d : Driver) (collection resource : String) (fs : FS) :
    Except DBError Unit × FS :=
  match validateCollectionResource collection resource with
  | some e => (.error e, fs)
  | none =>
    let dirp := d.dir ++ [collection, resource]
    match stat fs dirp with
    | none => (.error .unableToFindRecord, fs)
    | some (_, .dir) => (.ok (), removeAllFS fs dirp)
    | some (_, .file _) => (.ok (), removeAllFS fs (addSuffix dirp ".json"))

/-- The raw text of the file at `p` (default `""` when `p` is not a
regular file; used only under the hypothesis that it is one). -/
def rawContent (fs : FS) (p : Path) : String :=
  match lookupFS fs p with
  | some (.file s) => s
  | _ => ""

/-- Whether an `Except` result is a success. -/
def exceptIsOk {α β : Type} : Except α β → Bool
  | .ok _ => true
  | .error _ => false

/-- A well-formed identifier: non-empty (the only check the code itself
makes) and a single clean path component — the domain the specification
calls "valid" (§4.1: callers are trusted not to inject path-escaping
segments). -/
def validName (s : String) : Prop :=
  s ≠ "" ∧ s ≠ "." ∧ s ≠ ".." ∧ ∀ c ∈ s.toList, c ≠ '/'

instance (s : String) : Decidable (validName s) := by
  unfold validName; infer_instance

/-! ## Whitespace and string-escape lemmas -/

lemma string_mk_toList (s : String) : String.mk s.toList = s := rfl

lemma skipWs_cons_of_not_ws {c : Char} {l : List Char} (h : ws c = false) :
    skipWs (c :: l) = c :: l := by
  simp [skipWs, h]

lemma skipWs_append_of_ws {a : List Char} (h : ∀ c ∈ a, ws c = true)
    (l : List Char) : skipWs (a ++ l) = skipWs l := by
  induction a with
  | nil => rfl
  | cons c t ih =>
    have hc : ws c = true := h c (List.mem_cons_self c t)
    simp only [List.cons_append, skipWs, hc, if_true]
    exact ih (fun x hx => h x (List.mem_cons_of_mem c hx))

lemma wsOnly_indentChars {ind : List Char} (h : wsOnly ind) (d : Nat) :
    ∀ c ∈ indentChars ind d, ws c = true := by
  intro c hc
  simp only [indentChars, List.mem_flatten, List.mem_replicate] at hc
  obtain ⟨l, ⟨_, rfl⟩, hcl⟩ := hc
  exact h c hcl

lemma skipWs_nl_indent {ind : List Char} (h : wsOnly ind) (d : Nat)
    (X : List Char) : skipWs ('\n' :: (indentChars ind d ++ X)) = skipWs X := by
  have hnl : ws '\n' = true := by decide
  simp only [skipWs, hnl, if_true]
  exact skipWs_append_of_ws (wsOnly_indentChars h d) X

lemma skipWs_idem (l : List Char) : skipWs (skipWs l) = skipWs l := by
  induction l with
  | nil => rfl
  | cons c t ih =>
    by_cases h : ws c = true
    · simp [skipWs, h, ih]
    · simp [skipWs, h]

lemma parseStr_escape (cs rest : List Char) :
    parseStr (escapeList cs ++ '"' :: rest) = some (cs, rest) := by
  induction cs with
  | nil => simp [escapeList, parseStr]
  | cons c t ih =>
    by_cases h1 : c = '"'
    · subst h1; simp [escapeList, escapeChar, parseStr, parseEsc, unescapeChar, ih]
    · by_cases h2 : c = '\\'
      · subst h2; simp [escapeList, escapeChar, parseStr, parseEsc, unescapeChar, ih]
      · by_cases h3 : c = '\n'
        · subst h3; simp [escapeList, escapeChar, parseStr, parseEsc, unescapeChar, ih]
        · by_cases h4 : c = '\t'
          · subst h4; simp [escapeList, escapeChar, parseStr, parseEsc, unescapeChar, ih]
          · by_cases h5 : c = '\r'
            · subst h5; simp [escapeList, escapeChar, parseStr, parseEsc, unescapeChar, ih]
            · simp [escapeList, escapeChar, h1, h2, h3, h4, h5, parseStr, ih]

/-! ## Decimal number lemmas -/

lemma digitChar_isDigit {d : Nat} (h : d < 10) : (Nat.digitChar d).isDigit = true := by
  interval_cases d <;> decide

lemma charVal_digitChar {d : Nat} (h : d < 10) : charVal (Nat.digitChar d) = d := by
  interval_cases d <;> decide

lemma natToChars_all_digit (n : Nat) : ∀ c ∈ natToChars n, c.isDigit = true := by
  intro c hc
  unfold natToChars at hc
  split at hc
  · simp only [List.mem_singleton] at hc
    subst hc; decide
  · simp only [List.mem_map, List.mem_reverse] at hc
    obtain ⟨d, hd, rfl⟩ := hc
    exact digitChar_isDigit (Nat.digits_lt_base (by norm_num) hd)

lemma natToChars_ne_nil (n : Nat) : natToChars n ≠ [] := by
  unfold natToChars
  split
  · simp
  · next h =>
    simp only [ne_eq, List.map_eq_nil_iff, List.reverse_eq_nil_iff]
    exact Nat.digits_ne_nil_iff_ne_zero.mpr h

lemma natToChars_head (n : Nat) :
    ∃ c t, natToChars n = c :: t ∧ c.isDigit = true := by
  cases h : natToChars n with
  | nil => exact absurd h (natToChars_ne_nil n)
  | cons c t =>
    exact ⟨c, t, rfl, natToChars_all_digit n c (h ▸ List.mem_cons_self c t)⟩

lemma takeWhile_append_all {p : Char → Bool} {a x : List Char}
    (ha : ∀ c ∈ a, p c = true) (hx : ∀ c, x.head? = some c → p c = false) :
    (a ++ x).takeWhile p = a ∧ (a ++ x).dropWhile p = x := by
  induction a with
  | nil =>
    cases x with
    | nil => exact ⟨rfl, rfl⟩
    | cons c t =>
      simp [List.takeWhile, List.dropWhile, hx c rfl]
  | cons c t ih =>
    have hc : p c = true := ha c (List.mem_cons_self c t)
    obtain ⟨h1, h2⟩ := ih (fun y hy => ha y (List.mem_cons_of_mem c hy))
    simp [List.takeWhile, List.dropWhile, hc, h1, h2]

lemma ofDigits_map_natToChars (n : Nat) :
    Nat.ofDigits 10 (((natToChars n).map charVal).reverse) = n := by
  unfold natToChars
  split
  · next h => subst h; decide
  · rw [List.map_map]
    have hcongr : ∀ d ∈ (Nat.digits 10 n).reverse, (charVal ∘ Nat.digitChar) d = id d := by
      intro d hd
      exact charVal_digitChar (Nat.digits_lt_base (by norm_num) (List.mem_reverse.mp hd))
    rw [List.map_congr_left hcongr, List.map_id, List.reverse_reverse, Nat.ofDigits_digits]

lemma parseNat_natToChars (n : Nat) (rest : List Char)
    (hrest : headNotDigit rest = true) :
    parseNat (natToChars n ++ rest) = some (n, rest) := by
  have hx : ∀ c, rest.head? = some c → (fun c : Char => c.isDigit) c = false := by
    intro c hc
    cases rest with
    | nil => simp at hc
    | cons y t =>
      simp only [List.head?_cons, Option.some.injEq] at hc
      subst hc
      simpa [headNotDigit] using hrest
  obtain ⟨h1, h2⟩ := takeWhile_append_all (natToChars_all_digit n) hx
  have hne : (natToChars n).isEmpty = false := by
    cases h : natToChars n with
    | nil => exact absurd h (natToChars_ne_nil n)
    | cons c t => simp
  simp only [parseNat, h1, h2, hne, Bool.false_eq_true, if_false,
    ofDigits_map_natToChars, Option.some.injEq]

/-! ## Shape of serialized values -/

lemma ws_eq_false_of_isDigit {c : Char} (h : c.isDigit = true) : ws c = false := by
  cases hw : ws c
  · rfl
  · exfalso
    unfold ws at hw
    simp only [Bool.or_eq_true, decide_eq_true_eq] at hw
    rcases hw with ((h1 | h1) | h1) | h1 <;> subst h1 <;> exact absurd h (by decide)

lemma ne_of_isDigit {c x : Char} (h : c.isDigit = true) (hx : x.isDigit = false) :
    c ≠ x := by
  intro he
  subst he
  rw [h] at hx
  exact Bool.noConfusion hx

lemma serVal_head (ind : List Char) (d : Nat) (v : Json) :
    ∃ c t, serVal ind d v = c :: t ∧ ws c = false ∧ c ≠ ']' ∧ c ≠ '}' := by
  cases v with
  | null => refine ⟨'n', ['u', 'l', 'l'], by simp [serVal], ?_, ?_, ?_⟩ <;> decide
  | bool b =>
    cases b
    · refine ⟨'f', ['a', 'l', 's', 'e'], by simp [serVal], ?_, ?_, ?_⟩ <;> decide
    · refine ⟨'t', ['r', 'u', 'e'], by simp [serVal], ?_, ?_, ?_⟩ <;> decide
  | num n =>
    cases n with
    | ofNat m =>
      obtain ⟨c, t, hct, hd⟩ := natToChars_head m
      exact ⟨c, t, by simp [serVal, intToChars, hct], ws_eq_false_of_isDigit hd,
        ne_of_isDigit hd (by decide), ne_of_isDigit hd (by decide)⟩
    | negSucc m =>
      exact ⟨'-', natToChars (m + 1), by simp [serVal, intToChars],
        by decide, by decide, by decide⟩
  | str s =>
    exact ⟨'"', escapeList s.toList ++ ['"'], by simp [serVal],
      by decide, by decide, by decide⟩
  | arr es =>
    cases es with
    | nil => exact ⟨'[', [']'], by simp [serVal], by decide, by decide, by decide⟩
    | cons e es' =>
      exact ⟨'[', '\n' :: (indentChars ind (d + 1) ++ serVal ind (d + 1) e ++
        serArr ind d es' ++ '\n' :: (indentChars ind d ++ [']'])),
        by simp [serVal], by decide, by decide, by decide⟩
  | obj fs =>
    cases fs with
    | nil => exact ⟨'{', ['}'], by simp [serVal], by decide, by decide, by decide⟩
    | cons f fs' =>
      exact ⟨'{', '\n' :: (indentChars ind (d + 1) ++ serField ind (d + 1) f ++
        serObj ind d fs' ++ '\n' :: (indentChars ind d ++ ['}'])),
        by simp [serVal], by decide, by decide, by decide⟩

lemma headNotDigit_serArr (ind : List Char) (d : Nat) (es : List Json) (Y : List Char) :
    headNotDigit (serArr ind d es ++ '\n' :: Y) = true := by
  cases es with
  | nil => simp [serArr, headNotDigit]
  | cons e es' => simp [serArr, headNotDigit]

lemma headNotDigit_serObj (ind : List Char) (d : Nat) (fs : List (String × Json))
    (Y : List Char) :
    headNotDigit (serObj ind d fs ++ '\n' :: Y) = true := by
  cases fs with
  | nil => simp [serObj, headNotDigit]
  | cons f fs' => simp [serObj, headNotDigit]

lemma parseVal_congr_ws (fuel : Nat) {l l' : List Char}
    (h : skipWs l = skipWs l') : parseVal fuel l = parseVal fuel l' := by
  cases fuel with
  | zero => rfl
  | succ f =>
    rw [parseVal, parseVal, h]

lemma serField_cons (ind : List Char) (d : Nat) (k : String) (v : Json) :
    serField ind d (k, v) =
      '"' :: (escapeList k.toList ++ '"' :: ':' :: ' ' :: serVal ind d v) := by
  simp [serField]

lemma skipWs_to_serVal {ind : List Char} (hind : wsOnly ind) (k d : Nat)
    (v : Json) (X : List Char) :
    skipWs ('\n' :: (indentChars ind k ++ (serVal ind d v ++ X))) =
      serVal ind d v ++ X := by
  rw [skipWs_nl_indent hind]
  obtain ⟨c, t, hct, hws, _, _⟩ := serVal_head ind d v
  rw [hct, List.cons_append, skipWs_cons_of_not_ws hws]

lemma skipWs_to_serField {ind : List Char} (hind : wsOnly ind) (k d : Nat)
    (f : String × Json) (X : List Char) :
    skipWs ('\n' :: (indentChars ind k ++ (serField ind d f ++ X))) =
      serField ind d f ++ X := by
  rw [skipWs_nl_indent hind]
  obtain ⟨key, v⟩ := f
  rw [serField_cons, List.cons_append,
    skipWs_cons_of_not_ws (by decide : ws '"' = false)]

/-- Main roundtrip induction: parsing the serialization of a value (or of
array/object remainders) with enough fuel succeeds and consumes exactly
the serialized characters. -/
theorem parse_ser_all (fuel : Nat) :
    (∀ ind d v rest, wsOnly ind → headNotDigit rest = true →
      (serVal ind d v).length < fuel →
      parseVal fuel (serVal ind d v ++ rest) = some (v, rest)) ∧
    (∀ ind d es rest, wsOnly ind →
      (serArr ind d es).length < fuel →
      parseArrRest fuel
        (serArr ind d es ++ '\n' :: (indentChars ind d ++ ']' :: rest)) =
        some (es, rest)) ∧
    (∀ ind d d2 f fs rest, wsOnly ind →
      (serField ind d2 f).length + (serObj ind d fs).length < fuel →
      parseFieldFrom fuel
        (serField ind d2 f ++ (serObj ind d fs ++ '\n' :: (indentChars ind d ++ '}' :: rest))) =
        some (f :: fs, rest)) ∧
    (∀ ind d fs rest, wsOnly ind →
      (serObj ind d fs).length < fuel →
      parseObjRest fuel
        (serObj ind d fs ++ '\n' :: (indentChars ind d ++ '}' :: rest)) =
        some (fs, rest)) := by
  induction fuel with
  | zero =>
    refine ⟨?_, ?_, ?_, ?_⟩
    · intro ind d v rest _ _ hlen; exact absurd hlen (Nat.not_lt_zero _)
    · intro ind d es rest _ hlen; exact absurd hlen (Nat.not_lt_zero _)
    · intro ind d d2 f fs rest _ hlen; exact absurd hlen (Nat.not_lt_zero _)
    · intro ind d fs rest _ hlen; exact absurd hlen (Nat.not_lt_zero _)
  | succ fuel ih =>
    obtain ⟨ihP, ihQ, ihF, ihO⟩ := ih
    refine ⟨?_, ?_, ?_, ?_⟩
    · -- parseVal on a serialized value
      intro ind d v rest hind hrest hlen
      cases v with
      | null =>
        simp only [serVal, List.cons_append, List.nil_append]
        simp [parseVal, skipWs, ws]
      | bool b =>
        cases b with
        | true =>
          simp only [serVal, List.cons_append, List.nil_append]
          simp [parseVal, skipWs, ws]
        | false =>
          simp only [serVal, List.cons_append, List.nil_append]
          simp [parseVal, skipWs, ws]
      | num n =>
        cases n with
        | ofNat m =>
          obtain ⟨c, t, hct, hd⟩ := natToChars_head m
          simp only [serVal, intToChars]
          rw [hct, List.cons_append, parseVal,
            skipWs_cons_of_not_ws (ws_eq_false_of_isDigit hd)]
          simp only []
          rw [if_pos hd]
          rw [show c :: (t ++ rest) = natToChars m ++ rest from by
            rw [hct, List.cons_append]]
          rw [parseNat_natToChars m rest hrest]
          rfl
        | negSucc m =>
          simp only [serVal, intToChars, List.cons_append]
          rw [parseVal, skipWs_cons_of_not_ws (by decide : ws '-' = false)]
          simp only []
          rw [if_neg (by decide : ¬('-'.isDigit = true))]
          simp only [ite_true]
          rw [parseNat_natToChars (m + 1) rest hrest]
          simp only [Option.some.injEq, Prod.mk.injEq, Json.num.injEq, and_true]
          rw [Int.negSucc_eq]
          push_cast
          ring
      | str s =>
        simp only [serVal, List.cons_append, List.append_assoc,
          List.singleton_append]
        simp [parseVal, skipWs, ws]
        rw [parseStr_escape]
      | arr es =>
        cases es with
        | nil =>
          simp only [serVal, List.cons_append, List.nil_append]
          simp [parseVal, skipWs, ws]
        | cons e es =>
          simp only [serVal, List.length_cons, List.length_append] at hlen
          obtain ⟨c, t, hct, hws, hc1, hc2⟩ := serVal_head ind (d + 1) e
          simp only [serVal, List.cons_append, List.append_assoc,
            List.singleton_append, List.nil_append]
          rw [parseVal, skipWs_cons_of_not_ws (by decide : ws '[' = false)]
          simp only []
          rw [skipWs_to_serVal hind (d + 1) (d + 1) e _]
          rw [hct, List.cons_append]
          simp only []
          rw [if_neg (by decide : ¬('['.isDigit = true)),
            if_neg (by decide : ¬('[' = '-')), if_neg (by decide : ¬('[' = 'n')),
            if_neg (by decide : ¬('[' = 't')), if_neg (by decide : ¬('[' = 'f')),
            if_neg (by decide : ¬('[' = '"'))]
          simp only [ite_true]
          rw [if_neg hc1]
          rw [show c :: (t ++ (serArr ind d es ++ '\n' :: (indentChars ind d ++ ']' :: rest)))
              = serVal ind (d + 1) e ++
                (serArr ind d es ++ '\n' :: (indentChars ind d ++ ']' :: rest)) from by
            rw [hct, List.cons_append]]
          rw [ihP ind (d + 1) e _ hind (headNotDigit_serArr ind d es _) (by omega)]
          simp only []
          rw [ihQ ind d es rest hind (by omega)]
      | obj fs =>
        cases fs with
        | nil =>
          simp only [serVal, List.cons_append, List.nil_append]
          simp [parseVal, skipWs, ws]
        | cons f fs =>
          simp only [serVal, List.length_cons, List.length_append] at hlen
          obtain ⟨k, v⟩ := f
          simp only [serVal, List.cons_append, List.append_assoc,
            List.singleton_append, List.nil_append]
          rw [parseVal, skipWs_cons_of_not_ws (by decide : ws '{' = false)]
          simp only []
          rw [skipWs_to_serField hind (d + 1) (d + 1) (k, v) _]
          rw [serField_cons, List.cons_append]
          simp only []
          rw [if_neg (by decide : ¬('{'.isDigit = true)),
            if_neg (by decide : ¬('{' = '-')), if_neg (by decide : ¬('{' = 'n')),
            if_neg (by decide : ¬('{' = 't')), if_neg (by decide : ¬('{' = 'f')),
            if_neg (by decide : ¬('{' = '"')), if_neg (by decide : ¬('{' = '['))]
          simp only [ite_true]
          rw [if_neg (by decide : ¬('"' = '}'))]
          rw [show '"' :: ((escapeList k.toList ++ '"' :: ':' :: ' ' :: serVal ind (d + 1) v) ++
                (serObj ind d fs ++ '\n' :: (indentChars ind d ++ '}' :: rest)))
              = serField ind (d + 1) (k, v) ++
                (serObj ind d fs ++ '\n' :: (indentChars ind d ++ '}' :: rest)) from by
            rw [serField_cons, List.cons_append]]
          rw [ihF ind d (d + 1) (k, v) fs rest hind (by omega)]
    · -- parseArrRest on serialized remaining elements
      intro ind d es rest hind hlen
      cases es with
      | nil =>
        simp only [serArr, List.nil_append]
        rw [parseArrRest, skipWs_nl_indent hind,
          skipWs_cons_of_not_ws (by decide : ws ']' = false)]
        simp only [ite_true]
      | cons e es =>
        simp only [serArr, List.length_cons, List.length_append] at hlen
        obtain ⟨c, t, hct, hws, hc1, hc2⟩ := serVal_head ind (d + 1) e
        simp only [serArr, List.cons_append, List.append_assoc]
        rw [parseArrRest, skipWs_cons_of_not_ws (by decide : ws ',' = false)]
        simp only []
        rw [if_neg (by decide : ¬(',' = ']'))]
        simp only [ite_true]
        rw [parseVal_congr_ws fuel (show
          skipWs ('\n' :: (indentChars ind (d + 1) ++
            (serVal ind (d + 1) e ++ (serArr ind d es ++ '\n' :: (indentChars ind d ++ ']' :: rest)))))
          = skipWs (serVal ind (d + 1) e ++ (serArr ind d es ++ '\n' :: (indentChars ind d ++ ']' :: rest)))
          from by
            rw [skipWs_to_serVal hind (d + 1) (d + 1) e _, hct, List.cons_append,
              skipWs_cons_of_not_ws hws])]
        rw [ihP ind (d + 1) e _ hind (headNotDigit_serArr ind d es _) (by omega)]
        simp only []
        rw [ihQ ind d es rest hind (by omega)]
    · -- parseFieldFrom on a serialized member and the rest of the object
      intro ind d d2 f fs rest hind hlen
      obtain ⟨k, v⟩ := f
      rw [serField_cons] at hlen
      simp only [List.length_cons, List.length_append] at hlen
      simp only [serField_cons, List.cons_append, List.append_assoc]
      rw [parseFieldFrom]
      simp only [ite_true]
      rw [parseStr_escape]
      simp only []
      rw [skipWs_cons_of_not_ws (by decide : ws ':' = false)]
      simp only [ite_true]
      rw [parseVal_congr_ws fuel (show
        skipWs (' ' :: (serVal ind d2 v ++ (serObj ind d fs ++ '\n' :: (indentChars ind d ++ '}' :: rest))))
        = skipWs (serVal ind d2 v ++ (serObj ind d fs ++ '\n' :: (indentChars ind d ++ '}' :: rest)))
        from by
          rw [show skipWs (' ' :: (serVal ind d2 v ++ (serObj ind d fs ++ '\n' :: (indentChars ind d ++ '}' :: rest))))
            = skipWs (serVal ind d2 v ++ (serObj ind d fs ++ '\n' :: (indentChars ind d ++ '}' :: rest)))
            from by simp [skipWs, ws]])]
      rw [ihP ind d2 v _ hind (headNotDigit_serObj ind d fs _) (by omega)]
      simp only []
      rw [ihO ind d fs rest hind (by omega)]
      rfl
    · -- parseObjRest on serialized remaining members
      intro ind d fs rest hind hlen
      cases fs with
      | nil =>
        simp only [serObj, List.nil_append]
        rw [parseObjRest, skipWs_nl_indent hind,
          skipWs_cons_of_not_ws (by decide : ws '}' = false)]
        simp only [ite_true]
      | cons f fs =>
        simp only [serObj, List.length_cons, List.length_append] at hlen
        simp only [serObj, List.cons_append, List.append_assoc]
        rw [parseObjRest, skipWs_cons_of_not_ws (by decide : ws ',' = false)]
        simp only []
        rw [if_neg (by decide : ¬(',' = '}'))]
        simp only [ite_true]
        rw [skipWs_to_serField hind (d + 1) (d + 1) f _]
        rw [ihF ind d (d + 1) f fs rest hind (by omega)]

/-- `json.Unmarshal` recovers exactly the value `Driver.Write` serialized:
the encode/decode roundtrip of `encoding/json` on the driver's file
format. -/
theorem jsonUnmarshal_fileContent (v : Json) :
    jsonUnmarshal (jsonFileContent v) = some v := by
  have htl : (jsonFileContent v).toList = serVal ['\t'] 0 v ++ ['\n'] := rfl
  unfold jsonUnmarshal
  rw [htl]
  have hwt : wsOnly ['\t'] := by
    intro c hc
    simp only [List.mem_singleton] at hc
    subst hc
    rfl
  have h := (parse_ser_all ((serVal ['\t'] 0 v ++ ['\n']).length + 1)).1 ['\t'] 0 v ['\n']
    hwt (by decide) (by simp only [List.length_append]; omega)
  rw [h]
  simp [ws]

/-! ## Filesystem lemmas -/

lemma lookupFS_set_self (fs : FS) (p : Path) (e : Entry) :
    lookupFS (setFS fs p e) p = some e := by
  simp [lookupFS, setFS]

lemma lookupFS_set_ne (fs : FS) {p q : Path} (e : Entry) (h : p ≠ q) :
    lookupFS (setFS fs p e) q = lookupFS fs q := by
  simp [lookupFS, setFS, h]

lemma lookupFS_filter_of_keep {pred : Path × Entry → Bool} (fs : FS) (q : Path)
    (hq : ∀ e, pred (q, e) = true) :
    lookupFS (fs.filter pred) q = lookupFS fs q := by
  induction fs with
  | nil => rfl
  | cons pe t ih =>
    obtain ⟨p, e⟩ := pe
    by_cases hpq : p = q
    · subst hpq
      simp [List.filter, hq e, lookupFS]
    · cases hpred : pred (p, e) with
      | true => simp [List.filter, hpred, lookupFS, hpq, ih]
      | false => simp [List.filter, hpred, lookupFS, hpq, ih]

lemma lookupFS_filter_of_drop {pred : Path × Entry → Bool} (fs : FS) (q : Path)
    (hq : ∀ e, pred (q, e) = false) :
    lookupFS (fs.filter pred) q = none := by
  induction fs with
  | nil => rfl
  | cons pe t ih =>
    obtain ⟨p, e⟩ := pe
    by_cases hpq : p = q
    · subst hpq
      simp [List.filter, hq e, ih]
    · cases hpred : pred (p, e) with
      | true => simp [List.filter, hpred, lookupFS, hpq, ih]
      | false => simp [List.filter, hpred, ih]

lemma lookupFS_removePath_self (fs : FS) (p : Path) :
    lookupFS (removePathFS fs p) p = none := by
  apply lookupFS_filter_of_drop
  intro e
  simp

lemma lookupFS_removePath_ne (fs : FS) {p q : Path} (h : q ≠ p) :
    lookupFS (removePathFS fs p) q = lookupFS fs q := by
  apply lookupFS_filter_of_keep
  intro e
  simp [h]

lemma isPrefix_refl (p : Path) : isPrefix p p = true := by
  induction p with
  | nil => rfl
  | cons a t ih => simp [isPrefix, ih]

lemma lookupFS_removeAll_under (fs : FS) {p q : Path}
    (h : isPrefix p q = true) :
    lookupFS (removeAllFS fs p) q = none := by
  apply lookupFS_filter_of_drop
  intro e
  simp [h]

lemma lookupFS_removeAll_outside (fs : FS) {p q : Path}
    (h : isPrefix p q = false) :
    lookupFS (removeAllFS fs p) q = lookupFS fs q := by
  apply lookupFS_filter_of_keep
  intro e
  simp [h]

lemma lookupFS_foldl_set_not_mem (ps : List Path) (fs : FS) (q : Path)
    (h : q ∉ ps) :
    lookupFS (ps.foldl (fun acc p => setFS acc p .dir) fs) q = lookupFS fs q := by
  induction ps generalizing fs with
  | nil => rfl
  | cons p t ih =>
    simp only [List.foldl_cons]
    rw [ih (setFS fs p .dir) (fun ht => h (List.mem_cons_of_mem p ht))]
    exact lookupFS_set_ne fs .dir (fun he => h (he ▸ List.mem_cons_self p t))

lemma prefixesOf_length_le (p : Path) : ∀ q ∈ prefixesOf p, q.length ≤ p.length := by
  intro q hq
  simp only [prefixesOf, List.mem_map, List.mem_range] at hq
  obtain ⟨i, _, rfl⟩ := hq
  simp [List.length_take]

lemma mkdirAll_lookup_longer (fs : FS) (p q : Path) (fs' : FS)
    (hmk : mkdirAll fs p = .ok fs') (hlen : p.length < q.length) :
    lookupFS fs' q = lookupFS fs q := by
  unfold mkdirAll at hmk
  split at hmk
  · exact absurd hmk (by simp)
  · simp only [Except.ok.injEq] at hmk
    subst hmk
    apply lookupFS_foldl_set_not_mem
    intro hmem
    exact absurd (prefixesOf_length_le p q hmem) (by omega)

lemma addSuffix_append_last (a : Path) (x suf : String) :
    addSuffix (a ++ [x]) suf = a ++ [x ++ suf] := by
  induction a with
  | nil => rfl
  | cons h t ih =>
    cases t with
    | nil => rfl
    | cons t0 ts =>
      simp only [List.cons_append, addSuffix]
      simpa using ih

lemma length_append_singleton (a : Path) (x : String) :
    (a ++ [x]).length = a.length + 1 := by
  simp

lemma append_singleton_ne_of_ne {a : Path} {x y : String} (h : x ≠ y) :
    a ++ [x] ≠ a ++ [y] := by
  intro he
  exact h (by simpa using he)

lemma string_append_json_ne_tmp (r : String) :
    r ++ ".json" ≠ r ++ ".json" ++ ".tmp" := by
  intro h
  have hle := congrArg String.length h
  have h5 : (".json" : String).length = 5 := rfl
  have h4 : (".tmp" : String).length = 4 := rfl
  simp only [String.length_append, h5, h4] at hle
  omega

/-! ## Characterizing `Driver.Write` -/

lemma path2_ne_of_ne (a : Path) (c : String) {x y : String} (h : x ≠ y) :
    a ++ [c, x] ≠ a ++ [c, y] := by
  intro he
  exact h (by simpa using he)

lemma addSuffix_append_pair (a : Path) (c x suf : String) :
    addSuffix (a ++ [c, x]) suf = a ++ [c, x ++ suf] := by
  have h := addSuffix_append_last (a ++ [c]) x suf
  simpa using h

lemma Write_ok_lookup {d : Driver} {c r : String} {v : Json} {fs : FS}
    {sf : SysFailures} {fs' : FS}
    (hw : Driver.Write d c r v fs sf = (.ok (), fs')) :
    lookupFS fs' (d.dir ++ [c, r ++ ".json"]) =
      some (.file (jsonFileContent v)) ∧
    lookupFS fs' (d.dir ++ [c, r ++ ".json" ++ ".tmp"]) = none := by
  unfold Driver.Write at hw
  simp only [addSuffix_append_last, addSuffix_append_pair, List.append_assoc,
    List.cons_append, List.nil_append] at hw
  split at hw
  · simp at hw
  · split at hw
    · simp at hw
    · split at hw
      · simp at hw
      · next fs1 hmk =>
        split at hw
        · simp at hw
        · split at hw
          · simp at hw
          · split at hw
            · simp at hw
            · next fs2 hwf =>
              split at hw
              · simp at hw
              · split at hw
                · simp at hw
                · next fs3 hrn =>
                  simp only [Prod.mk.injEq, true_and] at hw
                  subst hw
                  unfold writeFileFS at hwf
                  split at hwf
                  · simp at hwf
                  · simp only [Except.ok.injEq] at hwf
                    subst hwf
                    unfold renameFS at hrn
                    rw [lookupFS_set_self] at hrn
                    split at hrn
                    · next c1 heq2 =>
                      simp only [Option.some.injEq, Entry.file.injEq] at heq2
                      subst heq2
                      split at hrn
                      · simp at hrn
                      · simp only [Except.ok.injEq] at hrn
                        subst hrn
                        refine ⟨lookupFS_set_self _ _ _, ?_⟩
                        rw [lookupFS_set_ne _ _
                          (path2_ne_of_ne d.dir c (string_append_json_ne_tmp r))]
                        exact lookupFS_removePath_self _ _
                    · next x heq2 => simp at heq2

lemma Write_error_lookup {d : Driver} {c r : String} {v : Json} {fs : FS}
    {sf : SysFailures} {e : DBError} {fs' : FS}
    (hw : Driver.Write d c r v fs sf = (.error e, fs')) :
    lookupFS fs' (d.dir ++ [c, r ++ ".json"]) =
      lookupFS fs (d.dir ++ [c, r ++ ".json"]) := by
  have hlong : (d.dir ++ [c]).length < (d.dir ++ [c, r ++ ".json"]).length := by
    simp
  unfold Driver.Write at hw
  simp only [addSuffix_append_last, addSuffix_append_pair, List.append_assoc,
    List.cons_append, List.nil_append] at hw
  split at hw
  · simp only [Prod.mk.injEq] at hw
    obtain ⟨-, rfl⟩ := hw
    rfl
  · split at hw
    · simp only [Prod.mk.injEq] at hw
      obtain ⟨-, rfl⟩ := hw
      rfl
    · split at hw
      · simp only [Prod.mk.injEq] at hw
        obtain ⟨-, rfl⟩ := hw
        rfl
      · next fs1 hmk =>
        have hfs1 : lookupFS fs1 (d.dir ++ [c, r ++ ".json"]) =
            lookupFS fs (d.dir ++ [c, r ++ ".json"]) :=
          mkdirAll_lookup_longer fs (d.dir ++ [c]) _ fs1 hmk hlong
        split at hw
        · simp only [Prod.mk.injEq] at hw
          obtain ⟨-, rfl⟩ := hw
          exact hfs1
        · split at hw
          · simp only [Prod.mk.injEq] at hw
            obtain ⟨-, rfl⟩ := hw
            exact hfs1
          · split at hw
            · next e0 hwf =>
              simp only [Prod.mk.injEq] at hw
              obtain ⟨-, rfl⟩ := hw
              exact hfs1
            · next fs2 hwf =>
              have hfs2 : lookupFS fs2 (d.dir ++ [c, r ++ ".json"]) =
                  lookupFS fs (d.dir ++ [c, r ++ ".json"]) := by
                unfold writeFileFS at hwf
                split at hwf
                · simp at hwf
                · simp only [Except.ok.injEq] at hwf
                  subst hwf
                  rw [lookupFS_set_ne _ _
                    (Ne.symm (path2_ne_of_ne d.dir c (string_append_json_ne_tmp r)))]
                  exact hfs1
              split at hw
              · simp only [Prod.mk.injEq] at hw
                obtain ⟨-, rfl⟩ := hw
                exact hfs2
              · split at hw
                · simp only [Prod.mk.injEq] at hw
                  obtain ⟨-, rfl⟩ := hw
                  exact hfs2
                · simp at hw

/-! ## Further path and filesystem helper lemmas -/

lemma string_ne_append_json (r : String) : r ≠ r ++ ".json" := by
  intro h
  have hle := congrArg String.length h
  have h5 : (".json" : String).length = 5 := rfl
  simp only [String.length_append, h5] at hle
  omega

lemma string_ne_append_json_tmp (r : String) : r ≠ r ++ ".json" ++ ".tmp" := by
  intro h
  have hle := congrArg String.length h
  have h5 : (".json" : String).length = 5 := rfl
  have h4 : (".tmp" : String).length = 4 := rfl
  simp only [String.length_append, h5, h4] at hle
  omega

lemma isPrefix_append_left (a l1 l2 : Path) :
    isPrefix (a ++ l1) (a ++ l2) = isPrefix l1 l2 := by
  induction a with
  | nil => rfl
  | cons x t ih => simp [isPrefix, ih]

lemma isPrefix_singleton_ne {x y : String} (h : x ≠ y) :
    isPrefix [x] [y] = false := by
  simp [isPrefix, h]

lemma removeAllFS_eq_self (fs : FS) (p : Path)
    (h : ∀ pe ∈ fs, isPrefix p pe.1 = false) :
    removeAllFS fs p = fs := by
  unfold removeAllFS
  apply List.filter_eq_self.mpr
  intro pe hpe
  simp [h pe hpe]

/-- A successful `Driver.Write` does not touch the bare record path
`<root>/<collection>/<resource>`. -/
lemma Write_ok_lookup_bare {d : Driver} {c r : String} {v : Json} {fs : FS}
    {sf : SysFailures} {fs' : FS}
    (hw : Driver.Write d c r v fs sf = (.ok (), fs')) :
    lookupFS fs' (d.dir ++ [c, r]) = lookupFS fs (d.dir ++ [c, r]) := by
  have hlong : (d.dir ++ [c]).length < (d.dir ++ [c, r]).length := by simp
  unfold Driver.Write at hw
  simp only [addSuffix_append_last, addSuffix_append_pair, List.append_assoc,
    List.cons_append, List.nil_append] at hw
  split at hw
  · simp at hw
  · split at hw
    · simp at hw
    · split at hw
      · simp at hw
      · next fs1 hmk =>
        have hfs1 : lookupFS fs1 (d.dir ++ [c, r]) =
            lookupFS fs (d.dir ++ [c, r]) :=
          mkdirAll_lookup_longer fs (d.dir ++ [c]) _ fs1 hmk hlong
        split at hw
        · simp at hw
        · split at hw
          · simp at hw
          · split at hw
            · simp at hw
            · next fs2 hwf =>
              split at hw
              · simp at hw
              · split at hw
                · simp at hw
                · next fs3 hrn =>
                  simp only [Prod.mk.injEq, true_and] at hw
                  subst hw
                  unfold writeFileFS at hwf
                  split at hwf
                  · simp at hwf
                  · simp only [Except.ok.injEq] at hwf
                    subst hwf
                    unfold renameFS at hrn
                    rw [lookupFS_set_self] at hrn
                    split at hrn
                    · next c1 heq2 =>
                      split at hrn
                      · simp at hrn
                      · simp only [Except.ok.injEq] at hrn
                        subst hrn
                        rw [lookupFS_set_ne _ _
                          (path2_ne_of_ne d.dir c (Ne.symm (string_ne_append_json r)))]
                        rw [lookupFS_removePath_ne _
                          (path2_ne_of_ne d.dir c (string_ne_append_json_tmp r))]
                        rw [lookupFS_set_ne _ _
                          (Ne.symm (path2_ne_of_ne d.dir c (string_ne_append_json_tmp r)))]
                        exact hfs1
                    · next x heq2 => simp at heq2

/-- `Driver.Read` of a resource whose suffixed file holds the serialized
bytes of `v` succeeds with `v`, whatever the bare path holds. -/
lemma Read_of_lookup (d : Driver) (c r : String) (fs : FS) (v : Json)
    (hc : c ≠ "") (hr : r ≠ "")
    (hfnl : lookupFS fs (d.dir ++ [c, r ++ ".json"]) =
      some (.file (jsonFileContent v))) :
    Driver.Read d c r fs = .ok v := by
  have hval : validateCollectionResource c r = none := by
    simp [validateCollectionResource, hc, hr]
  have hsuf : addSuffix (d.dir ++ [c, r]) ".json" = d.dir ++ [c, r ++ ".json"] :=
    addSuffix_append_pair d.dir c r ".json"
  unfold Driver.Read stat
  simp only [hval, hsuf, hfnl]
  cases hb : lookupFS fs (d.dir ++ [c, r]) with
  | some e => simp [hb, readFileFS, hfnl, jsonUnmarshal_fileContent]
  | none => simp [hb, readFileFS, hfnl, jsonUnmarshal_fileContent]

/-- The `Driver.ReadAll` loop succeeds when every listed entry is a
regular file, returning the raw contents in listing order. -/
lemma readAllLoop_ok (fs : FS) (dirp : Path) (l : List String)
    (h : ∀ f ∈ l, ∃ s, lookupFS fs (dirp ++ [f]) = some (.file s)) :
    readAllLoop fs dirp l = .ok (l.map (fun f => rawContent fs (dirp ++ [f]))) := by
  induction l with
  | nil => rfl
  | cons f t ih =>
    obtain ⟨s, hs⟩ := h f (List.mem_cons_self f t)
    rw [readAllLoop]
    unfold readFileFS
    rw [hs]
    simp only []
    rw [ih (fun y hy => h y (List.mem_cons_of_mem f hy))]
    simp [rawContent, hs]

/-- The `Driver.ReadAll` loop fails with the first failing read's error. -/
lemma readAllLoop_err (fs : FS) (dirp : Path) (l : List String) (f0 : String)
    (hf : l.find? (fun f => !(exceptIsOk (readFileFS fs (dirp ++ [f])))) = some f0) :
    ∃ e, readFileFS fs (dirp ++ [f0]) = .error e ∧
      readAllLoop fs dirp l = .error e := by
  induction l with
  | nil => simp at hf
  | cons f t ih =>
    cases hp : (!(exceptIsOk (readFileFS fs (dirp ++ [f])))) with
    | true =>
      simp only [List.find?_cons, hp, Option.some.injEq] at hf
      subst hf
      cases he : readFileFS fs (dirp ++ [f]) with
      | error e =>
        refine ⟨e, rfl, ?_⟩
        rw [readAllLoop, he]
      | ok s =>
        rw [he] at hp
        simp [exceptIsOk] at hp
    | false =>
      simp only [List.find?_cons, hp] at hf
      obtain ⟨e, he, hl⟩ := ih hf
      refine ⟨e, he, ?_⟩
      rw [readAllLoop]
      cases hff : readFileFS fs (dirp ++ [f]) with
      | error e0 =>
        rw [hff] at hp
        simp [exceptIsOk] at hp
      | ok s =>
        simp only []
        rw [hl]

/-! ## The claims -/

/-- Repackage a first-component computation as a full-pair equation. -/
lemma write_ok_pair (d : Driver) (c r : String) (v : Json) (fs : FS)
    (sf : SysFailures) (h : (Driver.Write d c r v fs sf).1 = .ok ()) :
    Driver.Write d c r v fs sf = (.ok (), (Driver.Write d c r v fs sf).2) :=
  Prod.ext h rfl

/-- Repackage a first-component computation as a full-pair equation. -/
lemma write_error_pair (d : Driver) (c r : String) (v : Json) (fs : FS)
    (sf : SysFailures) (e : DBError)
    (h : (Driver.Write d c r v fs sf).1 = .error e) :
    Driver.Write d c r v fs sf = (.error e, (Driver.Write d c r v fs sf).2) :=
  Prod.ext h rfl

/-- C1: for every valid non-empty collection name, non-empty resource name
and JSON value, a successful `Driver.Write` followed by `Driver.Read` of
the same (collection, resource) succeeds and yields a value deep-equal to
the one written. -/
theorem write_then_read_roundtrip (d : Driver) (c r : String) (v : Json)
    (fs : FS) (sf : SysFailures) (fs' : FS)
    (hc : validName c) (hr : validName r)
    (hw : Driver.Write d c r v fs sf = (.ok (), fs')) :
    Driver.Read d c r fs' = .ok v :=
  Read_of_lookup d c r fs' v hc.1 hr.1 (Write_ok_lookup hw).1

theorem write_then_read_roundtrip_witness :
    Driver.Read ⟨["db"]⟩ "user" "alice"
      (Driver.Write ⟨["db"]⟩ "user" "alice" (.num 30) [] noFailures).2 =
      .ok (.num 30) :=
  write_then_read_roundtrip ⟨["db"]⟩ "user" "alice" (.num 30) [] noFailures
    (Driver.Write ⟨["db"]⟩ "user" "alice" (.num 30) [] noFailures).2
    (by decide) (by decide)
    (write_ok_pair ⟨["db"]⟩ "user" "alice" (.num 30) [] noFailures rfl)

/-- C2: `Driver.Write` persists by writing the serialized bytes to the
temporary sibling `<resource>.json.tmp` and renaming it onto the final
path: on success the final path holds the serialized bytes and the
temporary binding is gone; if any step fails (validation, directory
creation, serialization, temp-file write, or rename) the error is returned
and the canonical resource file is exactly as it was before the call. -/
theorem write_atomic_error_semantics (d : Driver) (c r : String) (v : Json)
    (fs : FS) (sf : SysFailures) :
    (∀ e fs', Driver.Write d c r v fs sf = (.error e, fs') →
      lookupFS fs' (d.dir ++ [c, r ++ ".json"]) =
        lookupFS fs (d.dir ++ [c, r ++ ".json"])) ∧
    (∀ fs', Driver.Write d c r v fs sf = (.ok (), fs') →
      lookupFS fs' (d.dir ++ [c, r ++ ".json"]) =
        some (.file (jsonFileContent v)) ∧
      lookupFS fs' (d.dir ++ [c, r ++ ".json" ++ ".tmp"]) = none) :=
  ⟨fun _ _ hw => Write_error_lookup hw, fun _ hw => Write_ok_lookup hw⟩

theorem write_atomic_error_semantics_witness :
    lookupFS (Driver.Write ⟨["db"]⟩ "c" "r" .null []
        ⟨true, false, false, false, false⟩).2 (["db"] ++ ["c", "r" ++ ".json"]) =
      lookupFS [] (["db"] ++ ["c", "r" ++ ".json"]) ∧
    lookupFS (Driver.Write ⟨["db"]⟩ "c" "r" .null [] noFailures).2
        (["db"] ++ ["c", "r" ++ ".json"]) = some (.file (jsonFileContent .null)) :=
  ⟨(write_atomic_error_semantics ⟨["db"]⟩ "c" "r" .null []
      ⟨true, false, false, false, false⟩).1 .ioError
      (Driver.Write ⟨["db"]⟩ "c" "r" .null [] ⟨true, false, false, false, false⟩).2
      (write_error_pair ⟨["db"]⟩ "c" "r" .null [] ⟨true, false, false, false, false⟩
        .ioError rfl),
   ((write_atomic_error_semantics ⟨["db"]⟩ "c" "r" .null [] noFailures).2
      (Driver.Write ⟨["db"]⟩ "c" "r" .null [] noFailures).2
      (write_ok_pair ⟨["db"]⟩ "c" "r" .null [] noFailures rfl)).1⟩

/-- C3 (counterexample): the bytes a successful write stores are not the
value's serialization with two-space indentation — the code indents with a
tab (`json.MarshalIndent(v, "", "\t")`), shown here at a concrete value. -/
theorem write_two_space_indent_counterexample :
    lookupFS (Driver.Write ⟨["db"]⟩ "c" "r" (.obj [("A", .null)]) []
        noFailures).2 (["db"] ++ ["c", "r" ++ ".json"]) =
      some (.file (jsonFileContent (.obj [("A", .null)]))) ∧
    jsonFileContent (.obj [("A", .null)]) ≠
      specTwoSpaceFileContent (.obj [("A", .null)]) := by
  refine ⟨(Write_ok_lookup (write_ok_pair ⟨["db"]⟩ "c" "r" (.obj [("A", .null)])
    [] noFailures rfl)).1, ?_⟩
  simp only [jsonFileContent, specTwoSpaceFileContent, serVal, serField, serObj,
    escapeList, escapeChar, indentChars, List.replicate, List.flatten,
    String.toList]
  decide

/-- C3 (amended): the bytes stored by every successful write are the
value's JSON serialization with one tab character per indentation level
and a trailing newline. -/
theorem write_stores_tab_indented_bytes (d : Driver) (c r : String) (v : Json)
    (fs : FS) (sf : SysFailures) (fs' : FS)
    (hw : Driver.Write d c r v fs sf = (.ok (), fs')) :
    lookupFS fs' (d.dir ++ [c, r ++ ".json"]) =
      some (.file (jsonFileContent v)) ∧
    jsonFileContent v = String.mk (serVal ['\t'] 0 v ++ ['\n']) :=
  ⟨(Write_ok_lookup hw).1, rfl⟩

theorem write_stores_tab_indented_bytes_witness :
    lookupFS (Driver.Write ⟨["db"]⟩ "c" "r" .null [] noFailures).2
        (["db"] ++ ["c", "r" ++ ".json"]) = some (.file (jsonFileContent .null)) ∧
    jsonFileContent .null = String.mk (serVal ['\t'] 0 .null ++ ['\n']) :=
  write_stores_tab_indented_bytes ⟨["db"]⟩ "c" "r" .null [] noFailures
    (Driver.Write ⟨["db"]⟩ "c" "r" .null [] noFailures).2
    (write_ok_pair ⟨["db"]⟩ "c" "r" .null [] noFailures rfl)

/-- C4: with an empty collection name, write/read/delete fail with the
`MissingCollection` validation error; with a non-empty collection and an
empty resource name, with the `MissingResource` error — in both cases
before any filesystem state is touched (the returned filesystem is the
input one, and `Driver.Read` never mutates). -/
theorem validation_errors_before_any_io (d : Driver) (c r : String) (v : Json)
    (fs : FS) (sf : SysFailures) :
    (c = "" →
      Driver.Write d c r v fs sf = (.error .missingCollection, fs) ∧
      Driver.Read d c r fs = .error .missingCollection ∧
      Driver.Delete d c r fs = (.error .missingCollection, fs)) ∧
    (c ≠ "" → r = "" →
      Driver.Write d c r v fs sf = (.error .missingResource, fs) ∧
      Driver.Read d c r fs = .error .missingResource ∧
      Driver.Delete d c r fs = (.error .missingResource, fs)) := by
  constructor
  · rintro rfl
    refine ⟨?_, ?_, ?_⟩ <;>
      simp [Driver.Write, Driver.Read, Driver.Delete, validateCollectionResource]
  · rintro hc rfl
    refine ⟨?_, ?_, ?_⟩ <;>
      simp [Driver.Write, Driver.Read, Driver.Delete, validateCollectionResource, hc]

theorem validation_errors_before_any_io_witness :
    Driver.Write ⟨["db"]⟩ "" "r" .null [] noFailures =
      (.error .missingCollection, []) ∧
    Driver.Write ⟨["db"]⟩ "c" "" .null [] noFailures =
      (.error .missingResource, []) :=
  ⟨((validation_errors_before_any_io ⟨["db"]⟩ "" "r" .null [] noFailures).1 rfl).1,
   ((validation_errors_before_any_io ⟨["db"]⟩ "c" "" .null [] noFailures).2
      (by decide) rfl).1⟩

/-- C5: `stat` resolves the bare path first and consults the suffixed path
only when the bare path does not exist; when neither exists, `Driver.Read`
fails with the not-exist (`NotFound`) error. -/
theorem stat_bare_first_then_suffixed_notFound (d : Driver) (c r : String)
    (fs : FS) :
    (∀ e, lookupFS fs (d.dir ++ [c, r]) = some e →
      stat fs (d.dir ++ [c, r]) = some (d.dir ++ [c, r], e)) ∧
    (∀ e, lookupFS fs (d.dir ++ [c, r]) = none →
      lookupFS fs (addSuffix (d.dir ++ [c, r]) ".json") = some e →
      stat fs (d.dir ++ [c, r]) =
        some (addSuffix (d.dir ++ [c, r]) ".json", e)) ∧
    (validName c → validName r →
      lookupFS fs (d.dir ++ [c, r]) = none →
      lookupFS fs (addSuffix (d.dir ++ [c, r]) ".json") = none →
      Driver.Read d c r fs = .error .notFound) := by
  refine ⟨?_, ?_, ?_⟩
  · intro e he
    simp [stat, he]
  · intro e hb hs
    simp [stat, hb, hs]
  · intro hc hr hb hs
    have hval : validateCollectionResource c r = none := by
      simp [validateCollectionResource, hc.1, hr.1]
    simp [Driver.Read, hval, stat, hb, hs]

theorem stat_bare_first_then_suffixed_notFound_witness :
    stat [((["db"] ++ ["c", "r"] : Path), Entry.file "x")] (["db"] ++ ["c", "r"]) =
      some (["db"] ++ ["c", "r"], .file "x") ∧
    Driver.Read ⟨["db"]⟩ "c" "r" [] = .error .notFound :=
  ⟨(stat_bare_first_then_suffixed_notFound ⟨["db"]⟩ "c" "r" _).1 _ (by decide),
   (stat_bare_first_then_suffixed_notFound ⟨["db"]⟩ "c" "r" []).2.2
      (by decide) (by decide) (by decide) (by decide)⟩

/-- C6: contrary to the specification's requirement that a directory
listing failure be surfaced, `Driver.ReadAll` discards the `os.ReadDir`
error (`files, _ := os.ReadDir(dir)`, `src/main.go:140`): with the
collection directory present but the listing call failing, it returns an
empty successful result. -/
theorem readAll_swallows_readdir_error :
    Driver.ReadAll ⟨["db"]⟩ "user"
      [((["db"] : Path), Entry.dir), (["db", "user"], Entry.dir),
       (["db", "user", "a.json"], Entry.file "x")]
      ⟨false, false, false, false, true⟩ = .ok [] := by
  rfl

/-- C7: with the collection directory present and the listing succeeding,
a failing read of any listed file aborts the whole scan with that error
(no partial result); otherwise `Driver.ReadAll` returns one raw text
element per directory entry, in enumeration order. -/
theorem readAll_aborts_or_maps (d : Driver) (c : String) (fs : FS)
    (hc : c ≠ "") (hstat : stat fs (d.dir ++ [c]) ≠ none) :
    ((∀ f ∈ readDirFS fs (d.dir ++ [c]),
        ∃ s, lookupFS fs ((d.dir ++ [c]) ++ [f]) = some (.file s)) →
      Driver.ReadAll d c fs noFailures =
        .ok ((readDirFS fs (d.dir ++ [c])).map
          (fun f => rawContent fs ((d.dir ++ [c]) ++ [f])))) ∧
    (∀ f0, (readDirFS fs (d.dir ++ [c])).find?
        (fun f => !(exceptIsOk (readFileFS fs ((d.dir ++ [c]) ++ [f])))) =
          some f0 →
      ∃ e, readFileFS fs ((d.dir ++ [c]) ++ [f0]) = .error e ∧
        Driver.ReadAll d c fs noFailures = .error e) := by
  have hra : Driver.ReadAll d c fs noFailures =
      readAllLoop fs (d.dir ++ [c]) (readDirFS fs (d.dir ++ [c])) := by
    unfold Driver.ReadAll
    rw [if_neg hc]
    cases hb : stat fs (d.dir ++ [c]) with
    | none => exact absurd hb hstat
    | some pe => simp [hb, noFailures]
  constructor
  · intro h
    rw [hra]
    exact readAllLoop_ok fs _ _ h
  · intro f0 hf
    obtain ⟨e, he, hl⟩ := readAllLoop_err fs _ _ f0 hf
    exact ⟨e, he, by rw [hra]; exact hl⟩

theorem readAll_aborts_or_maps_witness :
    Driver.ReadAll ⟨["db"]⟩ "u"
      [((["db"] : Path), Entry.dir), (["db", "u"], Entry.dir),
       (["db", "u", "a"], Entry.file "1"), (["db", "u", "b"], Entry.file "2")]
      noFailures = .ok ["1", "2"] ∧
    Driver.ReadAll ⟨["db"]⟩ "u"
      [((["db"] : Path), Entry.dir), (["db", "u"], Entry.dir),
       (["db", "u", "sub"], Entry.dir)] noFailures = .error .ioError := by
  constructor
  · have h := (readAll_aborts_or_maps ⟨["db"]⟩ "u"
      [((["db"] : Path), Entry.dir), (["db", "u"], Entry.dir),
       (["db", "u", "a"], Entry.file "1"), (["db", "u", "b"], Entry.file "2")]
      (by decide) (by decide)).1 (by
        intro f hf
        have hrd : readDirFS
            [((["db"] : Path), Entry.dir), (["db", "u"], Entry.dir),
             (["db", "u", "a"], Entry.file "1"), (["db", "u", "b"], Entry.file "2")]
            ((Driver.mk ["db"]).dir ++ ["u"]) = ["a", "b"] := rfl
        rw [hrd] at hf
        simp only [List.mem_cons, List.mem_singleton] at hf
        rcases hf with rfl | rfl | hf
        · exact ⟨"1", by decide⟩
        · exact ⟨"2", by decide⟩
        · simp at hf)
    rw [h]
    rfl
  · obtain ⟨e, he, hl⟩ := (readAll_aborts_or_maps ⟨["db"]⟩ "u"
      [((["db"] : Path), Entry.dir), (["db", "u"], Entry.dir),
       (["db", "u", "sub"], Entry.dir)] (by decide) (by decide)).2 "sub" (by decide)
    have hcomp : readFileFS
        [((["db"] : Path), Entry.dir), (["db", "u"], Entry.dir),
         (["db", "u", "sub"], Entry.dir)]
        (((Driver.mk ["db"]).dir ++ ["u"]) ++ ["sub"]) = .error .ioError := rfl
    rw [hcomp] at he
    injection he with he2
    rw [← he2] at hl
    exact hl

/-- C8 (counterexample): when the bare path does not exist and the
suffixed path is a directory, `stat` resolves the target to that suffixed
directory, yet `Driver.Delete` returns success while removing it at the
bare path — the resolved directory and its contents survive. -/
theorem delete_suffixed_dir_counterexample :
    stat [((["db"] : Path), Entry.dir), (["db", "c"], Entry.dir),
        (["db", "c", "r.json"], Entry.dir),
        (["db", "c", "r.json", "x.json"], Entry.file "1")]
      (["db"] ++ ["c", "r"]) = some (["db", "c", "r.json"], .dir) ∧
    Driver.Delete ⟨["db"]⟩ "c" "r"
      [((["db"] : Path), Entry.dir), (["db", "c"], Entry.dir),
       (["db", "c", "r.json"], Entry.dir),
       (["db", "c", "r.json", "x.json"], Entry.file "1")] =
    (.ok (), [((["db"] : Path), Entry.dir), (["db", "c"], Entry.dir),
       (["db", "c", "r.json"], Entry.dir),
       (["db", "c", "r.json", "x.json"], Entry.file "1")]) := by
  exact ⟨rfl, rfl⟩

/-- C8 (amended): when the bare path `<root>/<collection>/<resource>`
itself is a directory, `Driver.Delete` succeeds and removes that directory
with everything beneath it (in particular, pointing the resource argument
at a directory removes it recursively). -/
theorem delete_bare_dir_removes_recursively (d : Driver) (c r : String)
    (fs : FS) (hc : validName c) (hr : validName r)
    (hdir : lookupFS fs (d.dir ++ [c, r]) = some .dir) :
    (Driver.Delete d c r fs).1 = .ok () ∧
    ∀ q, isPrefix (d.dir ++ [c, r]) q = true →
      lookupFS (Driver.Delete d c r fs).2 q = none := by
  have hval : validateCollectionResource c r = none := by
    simp [validateCollectionResource, hc.1, hr.1]
  unfold Driver.Delete stat
  simp only [hval, hdir]
  exact ⟨trivial, fun q hq => lookupFS_removeAll_under fs hq⟩

theorem delete_bare_dir_removes_recursively_witness :
    (Driver.Delete ⟨["db"]⟩ "c" "r"
      [((["db"] : Path), Entry.dir), (["db", "c"], Entry.dir),
       (["db", "c", "r"], Entry.dir),
       (["db", "c", "r", "x.json"], Entry.file "1")]).1 = .ok () ∧
    lookupFS (Driver.Delete ⟨["db"]⟩ "c" "r"
      [((["db"] : Path), Entry.dir), (["db", "c"], Entry.dir),
       (["db", "c", "r"], Entry.dir),
       (["db", "c", "r", "x.json"], Entry.file "1")]).2
      ["db", "c", "r", "x.json"] = none :=
  ⟨(delete_bare_dir_removes_recursively ⟨["db"]⟩ "c" "r" _
      (by decide) (by decide) (by decide)).1,
   (delete_bare_dir_removes_recursively ⟨["db"]⟩ "c" "r" _
      (by decide) (by decide) (by decide)).2 ["db", "c", "r", "x.json"] (by decide)⟩

/-- C9 (counterexample): with a pre-existing directory at the bare path
`<root>/user/alice`, a successful write then a successful delete leave the
suffixed record in place, and the subsequent read succeeds instead of
failing with `NotFound`. -/
theorem write_delete_read_counterexample :
    (Driver.Write ⟨["db"]⟩ "user" "alice" (.num 3)
        [((["db"] : Path), Entry.dir), (["db", "user"], Entry.dir),
         (["db", "user", "alice"], Entry.dir)] noFailures).1 = .ok () ∧
    (Driver.Delete ⟨["db"]⟩ "user" "alice"
        (Driver.Write ⟨["db"]⟩ "user" "alice" (.num 3)
          [((["db"] : Path), Entry.dir), (["db", "user"], Entry.dir),
           (["db", "user", "alice"], Entry.dir)] noFailures).2).1 = .ok () ∧
    Driver.Read ⟨["db"]⟩ "user" "alice"
      (Driver.Delete ⟨["db"]⟩ "user" "alice"
        (Driver.Write ⟨["db"]⟩ "user" "alice" (.num 3)
          [((["db"] : Path), Entry.dir), (["db", "user"], Entry.dir),
           (["db", "user", "alice"], Entry.dir)] noFailures).2).2 = .ok (.num 3) ∧
    (Except.ok (.num 3) : Except DBError Json) ≠ .error .notFound := by
  refine ⟨rfl, rfl, ?_, fun h => Except.noConfusion h⟩
  exact Read_of_lookup ⟨["db"]⟩ "user" "alice" _ (.num 3)
    (by decide) (by decide) rfl

/-- C9 (amended): for every valid (collection, resource) whose bare path
is not a pre-existing directory, a successful write followed by delete
makes a subsequent read fail with `NotFound`. -/
theorem write_delete_then_read_notFound (d : Driver) (c r : String) (v : Json)
    (fs : FS) (sf : SysFailures) (fs' : FS)
    (hc : validName c) (hr : validName r)
    (hw : Driver.Write d c r v fs sf = (.ok (), fs'))
    (hbare : lookupFS fs (d.dir ++ [c, r]) ≠ some .dir) :
    (Driver.Delete d c r fs').1 = .ok () ∧
    Driver.Read d c r (Driver.Delete d c r fs').2 = .error .notFound := by
  have hval : validateCollectionResource c r = none := by
    simp [validateCollectionResource, hc.1, hr.1]
  have hfnl := (Write_ok_lookup hw).1
  have hbare' : lookupFS fs' (d.dir ++ [c, r]) = lookupFS fs (d.dir ++ [c, r]) :=
    Write_ok_lookup_bare hw
  have hsuf : addSuffix (d.dir ++ [c, r]) ".json" = d.dir ++ [c, r ++ ".json"] :=
    addSuffix_append_pair d.dir c r ".json"
  have hdel : Driver.Delete d c r fs' =
      (.ok (), removeAllFS fs' (d.dir ++ [c, r ++ ".json"])) := by
    unfold Driver.Delete stat
    simp only [hval, hsuf]
    cases hb : lookupFS fs' (d.dir ++ [c, r]) with
    | some e =>
      cases e with
      | dir => exact absurd (hbare' ▸ hb) hbare
      | file s => simp
    | none => simp [hfnl]
  rw [hdel]
  refine ⟨rfl, ?_⟩
  have hnp : isPrefix (d.dir ++ [c, r ++ ".json"]) (d.dir ++ [c, r]) = false := by
    rw [show (d.dir ++ [c, r ++ ".json"]) = (d.dir ++ [c]) ++ [r ++ ".json"] from
        by simp,
      show (d.dir ++ [c, r]) = (d.dir ++ [c]) ++ [r] from by simp,
      isPrefix_append_left]
    exact isPrefix_singleton_ne (Ne.symm (string_ne_append_json r))
  have hb2 : lookupFS (removeAllFS fs' (d.dir ++ [c, r ++ ".json"]))
      (d.dir ++ [c, r]) = lookupFS fs' (d.dir ++ [c, r]) :=
    lookupFS_removeAll_outside fs' hnp
  have hs2 : lookupFS (removeAllFS fs' (d.dir ++ [c, r ++ ".json"]))
      (d.dir ++ [c, r ++ ".json"]) = none :=
    lookupFS_removeAll_under fs' (isPrefix_refl _)
  unfold Driver.Read stat
  simp only [hval, hsuf, hs2, hb2]
  cases hb : lookupFS fs' (d.dir ++ [c, r]) with
  | some e => simp [readFileFS, hs2]
  | none => simp

theorem write_delete_then_read_notFound_witness :
    (Driver.Delete ⟨["db"]⟩ "user" "alice"
      (Driver.Write ⟨["db"]⟩ "user" "alice" (.num 3) [] noFailures).2).1 =
        .ok () ∧
    Driver.Read ⟨["db"]⟩ "user" "alice"
      (Driver.Delete ⟨["db"]⟩ "user" "alice"
        (Driver.Write ⟨["db"]⟩ "user" "alice" (.num 3) [] noFailures).2).2 =
      .error .notFound :=
  write_delete_then_read_notFound ⟨["db"]⟩ "user" "alice" (.num 3) [] noFailures
    (Driver.Write ⟨["db"]⟩ "user" "alice" (.num 3) [] noFailures).2
    (by decide) (by decide)
    (write_ok_pair ⟨["db"]⟩ "user" "alice" (.num 3) [] noFailures rfl) (by decide)

/-- C10: when the bare path exists as a regular file and nothing exists at
or under the suffixed path, `Driver.Delete` returns success and changes
nothing — it only attempts to remove the (absent) suffixed path, leaving
the bare file in place. -/
theorem delete_bare_file_suffix_missing_noop (d : Driver) (c r : String)
    (fs : FS) (s : String)
    (hc : validName c) (hr : validName r)
    (hbare : lookupFS fs (d.dir ++ [c, r]) = some (.file s))
    (hnosuf : ∀ pe ∈ fs, isPrefix (d.dir ++ [c, r ++ ".json"]) pe.1 = false) :
    Driver.Delete d c r fs = (.ok (), fs) := by
  have hval : validateCollectionResource c r = none := by
    simp [validateCollectionResource, hc.1, hr.1]
  have hsuf : addSuffix (d.dir ++ [c, r]) ".json" = d.dir ++ [c, r ++ ".json"] :=
    addSuffix_append_pair d.dir c r ".json"
  unfold Driver.Delete stat
  simp only [hval, hbare, hsuf]
  rw [removeAllFS_eq_self fs _ hnosuf]

theorem delete_bare_file_suffix_missing_noop_witness :
    Driver.Delete ⟨["db"]⟩ "c" "r"
      [((["db"] : Path), Entry.dir), (["db", "c"], Entry.dir),
       (["db", "c", "r"], Entry.file "raw")] =
    (.ok (), [((["db"] : Path), Entry.dir), (["db", "c"], Entry.dir),
       (["db", "c", "r"], Entry.file "raw")]) :=
  delete_bare_file_suffix_missing_noop ⟨["db"]⟩ "c" "r" _ "raw"
    (by decide) (by decide) (by decide) (by decide)

end JsonDB
